import Mathlib

/-!
Shallow embedding of the stereo_slam pose-graph backend.

Source files available: `include/graph.h` (declarations of the `Graph`
class), `include/cluster.h` and `src/cluster.cpp` (the `Cluster` class).
The bodies of the `Graph` member functions and of `Tools::transformPoint`
are not part of the available source, so those operations are modelled
from the specification; each such definition carries a doc comment
starting with `Modelled from the spec:`.

Machine floating-point scalars are modelled by an arbitrary linear
ordered commutative ring `α` (the development never divides); concrete
evaluations instantiate `α := ℤ`.
-/

namespace slam

/-- A 3D point / translation vector, the model of `cv::Point3f` and of the
translation component of `tf::Transform`. -/
abbrev Vec3 (α : Type) := Fin 3 → α

/-- A rigid transform (`tf::Transform`): a rotation matrix and a
translation vector. -/
structure RigidTransform (α : Type) where
  rot : Matrix (Fin 3) (Fin 3) α
  trans : Vec3 α

section Defs

variable {α : Type} [LinearOrderedCommRing α]

/-- Application of a rigid transform to a point: rotate, then translate. -/
def applyTransform (T : RigidTransform α) (p : Vec3 α) : Vec3 α :=
  T.rot.mulVec p + T.trans

/-- The identity rigid transform. -/
def idTransform : RigidTransform α := ⟨1, 0⟩

/-- The inverse of a rigid transform whose rotation is orthogonal:
transpose the rotation and counter-rotate the translation. -/
def RigidTransform.inverse (T : RigidTransform α) : RigidTransform α :=
  ⟨T.rot.transpose, -(T.rot.transpose.mulVec T.trans)⟩

/-- Modelled from the spec: `Tools::transformPoint` (declared in the
missing `tools.h`) applies the rigid transform to a camera-frame point. -/
def transformPoint (p : Vec3 α) (T : RigidTransform α) : Vec3 α :=
  applyTransform T p

/-- Squared Euclidean distance between two translation vectors.  Sorting
by squared distance orders candidates exactly as sorting by Euclidean
distance does, since squaring is monotone on nonnegative reals. -/
def dist2 (u v : Vec3 α) : α :=
  (u 0 - v 0) ^ 2 + (u 1 - v 1) ^ 2 + (u 2 - v 2) ^ 2

/-- The `Cluster` class of `cluster.h`: one keypoint clustering of a
camera frame, with its pose and stereo 3D points in the camera frame.
Descriptor matrices are carried as opaque row lists. -/
structure Cluster (α : Type) where
  id_ : ℤ
  frame_id_ : ℤ
  pose_ : RigidTransform α
  kp_ : List (α × α)
  ldb_desc_ : List (List α)
  sift_desc_ : List (List α)
  points_ : List (Vec3 α)

/-- The default constructor `Cluster::Cluster() : id_(-1) {}`: id is `-1`,
the containers are empty; scalar and pose members are left unspecified by
the C++ default construction and are modelled by fixed defaults. -/
def Cluster.mkDefault : Cluster α :=
  ⟨-1, 0, idTransform, [], [], [], []⟩

/-- `Cluster::getWorldPoints` from `cluster.cpp`: walks `points_` in
order, pushing the transform of each point through `pose_` onto a fresh
output vector. -/
def Cluster.getWorldPoints (c : Cluster α) : List (Vec3 α) :=
  c.points_.foldl (fun out p => out ++ [transformPoint p c.pose_]) []

/-- Accessor `Cluster::getId`. -/
def Cluster.getId (c : Cluster α) : ℤ := c.id_

/-- Accessor `Cluster::getFrameId`. -/
def Cluster.getFrameId (c : Cluster α) : ℤ := c.frame_id_

/-- Accessor `Cluster::getPoints`. -/
def Cluster.getPoints (c : Cluster α) : List (Vec3 α) := c.points_

/-- Accessor `Cluster::getPose`. -/
def Cluster.getPose (c : Cluster α) : RigidTransform α := c.pose_

/-- A graph vertex: the reduced seed pose (`Eigen::Vector4f`, translation
plus heading) handed to `addVertex`, and the full pose written by
optimization. -/
structure Vertex (α : Type) where
  pose_estimate : Fin 4 → α
  optimized_pose : RigidTransform α

/-- A graph edge: endpoints, relative transform and inlier count, as in
`Graph::addEdge`. -/
structure Edge (α : Type) where
  fromId : ℤ
  toId : ℤ
  relative_transform : RigidTransform α
  inlier_count : ℤ

/-- Modelled from the spec: a frame as consumed by the pose graph —
`{frame_id, one or more Cluster-derived sub-poses}` (the `Frame` class of
the missing `frame.h`). -/
structure Frame (α : Type) where
  frame_id : ℤ
  sub_poses : List (Fin 4 → α)

/-- The mutable state of the `Graph` class: the optimizer's vertex and
edge stores, the frame queue, the processed-frames counter, the
cluster/frame index `cluster_frame_`, and the camera-to-odometry
configuration transform.  A vertex's id is its index in `vertices`. -/
structure Graph (α : Type) where
  vertices : List (Vertex α)
  edges : List (Edge α)
  frame_queue : List (Frame α)
  frames_counter : ℤ
  cluster_frame : List (ℤ × ℤ)
  camera2odom : RigidTransform α

/-- Modelled from the spec: `Graph::init` produces the freshly
initialized, empty graph. -/
def Graph.initial : Graph α :=
  ⟨[], [], [], 0, [], idTransform⟩

/-- A vertex id exists iff it is nonnegative and below the vertex count. -/
def Graph.hasVertex (g : Graph α) (i : ℤ) : Bool :=
  decide (0 ≤ i) && decide (i < (g.vertices.length : ℤ))

/-- The errors of the spec's taxonomy that are visible to callers
(`ResourceExhaustion` is fatal and not modelled). -/
inductive GraphError where
  | invalidVertexReference
  deriving DecidableEq

/-- The status reported by `update`. -/
inductive UpdateStatus where
  | converged
  | optimizationDivergence
  deriving DecidableEq

/-- Modelled from the spec: `Graph::addVertex` appends a vertex seeded
with the given reduced pose and returns its newly assigned id (the
previous vertex count).  The initial optimized pose takes the seed's
translation; the heading-promotion convention is left open by the spec
and modelled as the identity rotation. -/
def mkSeedVertex (pose : Fin 4 → α) : Vertex α :=
  ⟨pose, ⟨1, fun i => pose i.castSucc⟩⟩

def Graph.addVertex (g : Graph α) (pose : Fin 4 → α) : Graph α × ℤ :=
  (⟨g.vertices ++ [mkSeedVertex pose],
    g.edges, g.frame_queue, g.frames_counter, g.cluster_frame, g.camera2odom⟩,
   (g.vertices.length : ℤ))

/-- Modelled from the spec: `Graph::addEdge` requires both endpoints to
exist, failing with `InvalidVertexReference` otherwise; on success it
appends exactly one edge and touches nothing else. -/
def Graph.addEdge (g : Graph α) (i j : ℤ) (t : RigidTransform α)
    (inliers : ℤ) : Except GraphError (Graph α) :=
  if g.hasVertex i && g.hasVertex j then
    .ok ⟨g.vertices, g.edges ++ [⟨i, j, t, inliers⟩], g.frame_queue,
         g.frames_counter, g.cluster_frame, g.camera2odom⟩
  else
    .error .invalidVertexReference

/-- Insert an element into a list so that it lands before the first
element it compares `le` to (the insertion step of insertion sort). -/
def insertLe {β : Type} (le : β → β → Bool) (x : β) : List β → List β
  | [] => [x]
  | y :: ys => if le x y then x :: y :: ys else y :: insertLe le x ys

/-- Insertion sort by the boolean comparison `le`. -/
def insertionSort {β : Type} (le : β → β → Bool) : List β → List β
  | [] => []
  | x :: xs => insertLe le x (insertionSort le xs)

/-- The translation of vertex `i`'s optimized pose (zero if out of
range; all uses are guarded by `hasVertex`). -/
def Graph.vertexTrans (g : Graph α) (i : ℤ) : Vec3 α :=
  match g.vertices.get? i.toNat with
  | some v => v.optimized_pose.trans
  | none => 0

/-- The candidate ids of a neighbor query: every existing vertex id that
lies outside the inclusive discard window `[c - w, c + w]`. -/
def Graph.candidates (g : Graph α) (c w : ℤ) : List ℤ :=
  ((List.range g.vertices.length).map Int.ofNat).filter
    (fun id => decide (id < c - w) || decide (c + w < id))

/-- The comparison used to rank candidates: ascending squared distance of
the optimized translations to the anchor `v`, ties broken by lower id. -/
def Graph.distLe (g : Graph α) (v : ℤ) (a b : ℤ) : Bool :=
  decide (dist2 (g.vertexTrans a) (g.vertexTrans v)
            < dist2 (g.vertexTrans b) (g.vertexTrans v)) ||
  (decide (dist2 (g.vertexTrans a) (g.vertexTrans v)
             = dist2 (g.vertexTrans b) (g.vertexTrans v)) && decide (a ≤ b))

/-- The strict version of `Graph.distLe`, as a proposition. -/
def Graph.distLt (g : Graph α) (v : ℤ) (a b : ℤ) : Prop :=
  dist2 (g.vertexTrans a) (g.vertexTrans v)
      < dist2 (g.vertexTrans b) (g.vertexTrans v) ∨
    (dist2 (g.vertexTrans a) (g.vertexTrans v)
        = dist2 (g.vertexTrans b) (g.vertexTrans v) ∧ a < b)

/-- Modelled from the spec: `Graph::findClosestVertices` fails with
`InvalidVertexReference` when the anchor does not exist; otherwise it
ranks every existing vertex outside the window `[c - w, c + w]` by
ascending Euclidean distance of pose translations (ties broken by lower
id) and returns the best `best_n`. -/
def Graph.findClosestVertices (g : Graph α) (vertex_id window_center window best_n : ℤ) :
    Except GraphError (List ℤ) :=
  if g.hasVertex vertex_id then
    .ok ((insertionSort (g.distLe vertex_id)
            (g.candidates window_center window)).take best_n.toNat)
  else
    .error .invalidVertexReference

/-- Modelled from the spec: `Graph::getFrameVertices` collects, in
insertion order, the vertex ids recorded in the cluster/frame index for
the given frame id; unknown frame ids yield the empty list, and no error
path exists. -/
def Graph.getFrameVertices (g : Graph α) (frame_id : ℤ) : List ℤ :=
  (g.cluster_frame.filter (fun pr => pr.2 == frame_id)).map Prod.fst

/-- Overwrite the optimized poses of the vertices with a list of solved
poses, pairing positionally and keeping a vertex's pose when the list is
exhausted. -/
def setPoses : List (Vertex α) → List (RigidTransform α) → List (Vertex α)
  | [], _ => []
  | v :: vs, [] => v :: vs
  | v :: vs, p :: ps => ⟨v.pose_estimate, p⟩ :: setPoses vs ps

/-- Modelled from the spec: `Graph::update` runs the batch solve.  The
g2o solver is external; its outcome is passed in as `res` — `some poses`
when it converged to finite poses for the vertices, `none` when the
iteration cap was hit or a non-finite pose was produced.  On convergence
every optimized pose is overwritten; on divergence the state is kept and
the non-fatal status is reported. -/
def Graph.update (g : Graph α) (res : Option (List (RigidTransform α))) :
    Graph α × UpdateStatus :=
  match res with
  | none => (g, .optimizationDivergence)
  | some ps =>
      (⟨setPoses g.vertices ps, g.edges, g.frame_queue, g.frames_counter,
        g.cluster_frame, g.camera2odom⟩, .converged)

/-- `Graph::addFrameToQueue` appends the frame at the queue's tail. -/
def Graph.addFrameToQueue (g : Graph α) (f : Frame α) : Graph α :=
  ⟨g.vertices, g.edges, g.frame_queue ++ [f], g.frames_counter,
   g.cluster_frame, g.camera2odom⟩

/-- Modelled from the spec: the per-frame insertion step — each sub-pose
becomes a vertex via `addVertex` and the pair `(vertex id, frame id)` is
appended to the cluster/frame index. -/
def Graph.insertFrame (g : Graph α) (f : Frame α) : Graph α :=
  f.sub_poses.foldl
    (fun st p =>
      let r := st.addVertex p
      ⟨r.1.vertices, r.1.edges, r.1.frame_queue, r.1.frames_counter,
       r.1.cluster_frame ++ [(r.2, f.frame_id)], r.1.camera2odom⟩)
    g

/-- Modelled from the spec: `Graph::processNewFrame` pops the frame at
the head of the queue, converts it into vertices, and records the
cluster/frame associations; with an empty queue it does nothing. -/
def Graph.processNewFrame (g : Graph α) : Graph α :=
  match g.frame_queue with
  | [] => g
  | f :: rest =>
      Graph.insertFrame
        ⟨g.vertices, g.edges, rest, g.frames_counter + 1,
         g.cluster_frame, g.camera2odom⟩ f

/-- One persisted vertex entry: id and optimized pose. -/
structure VertexEntry (α : Type) where
  vertex_id : ℤ
  pose : RigidTransform α

/-- One persisted edge entry. -/
structure EdgeEntry (α : Type) where
  fromId : ℤ
  toId : ℤ
  relative_transform : RigidTransform α
  inlier_count : ℤ

/-- The persisted record: vertex entries then edge entries. -/
structure GraphRecord (α : Type) where
  vertexEntries : List (VertexEntry α)
  edgeEntries : List (EdgeEntry α)

/-- The vertex entries, ids assigned from the running counter `n`. -/
def vertexEntriesFrom (n : ℕ) : List (Vertex α) → List (VertexEntry α)
  | [] => []
  | v :: vs => ⟨(n : ℤ), v.optimized_pose⟩ :: vertexEntriesFrom (n + 1) vs

/-- Modelled from the spec: `Graph::saveToFile` serializes one entry per
vertex (ascending id) followed by one entry per edge (insertion order),
and is read-only with respect to the graph — the unchanged state is
returned alongside the record. -/
def Graph.saveToFile (g : Graph α) : GraphRecord α × Graph α :=
  (⟨vertexEntriesFrom 0 g.vertices,
    g.edges.map (fun e => ⟨e.fromId, e.toId, e.relative_transform, e.inlier_count⟩)⟩,
   g)

/-- One invocation of a public graph operation, with the data it
consumes (for `update`, the external solver's outcome).  Queries carry
their arguments but do not mutate the state. -/
inductive Op (α : Type) where
  | opAddVertex (pose : Fin 4 → α)
  | opAddEdge (i j : ℤ) (t : RigidTransform α) (inliers : ℤ)
  | opUpdate (res : Option (List (RigidTransform α)))
  | opAddFrameToQueue (f : Frame α)
  | opProcessNewFrame
  | opFindClosestVertices (v c w k : ℤ)
  | opGetFrameVertices (fid : ℤ)
  | opSaveToFile
  | opSetCamera2Odom (t : RigidTransform α)

/-- The state transition of one operation.  A failed `addEdge` leaves the
state unchanged; queries and `saveToFile` never change it. -/
def applyOp (g : Graph α) : Op α → Graph α
  | .opAddVertex p => (g.addVertex p).1
  | .opAddEdge i j t n =>
      match g.addEdge i j t n with
      | .ok g' => g'
      | .error _ => g
  | .opUpdate res => (g.update res).1
  | .opAddFrameToQueue f => g.addFrameToQueue f
  | .opProcessNewFrame => g.processNewFrame
  | .opFindClosestVertices _ _ _ _ => g
  | .opGetFrameVertices _ => g
  | .opSaveToFile => (g.saveToFile).2
  | .opSetCamera2Odom t =>
      ⟨g.vertices, g.edges, g.frame_queue, g.frames_counter, g.cluster_frame, t⟩

/-- The dangling-edge-freedom invariant: both endpoints of every stored
edge are existing vertex ids. -/
def edgesValid (g : Graph α) : Prop :=
  ∀ e ∈ g.edges, g.hasVertex e.fromId = true ∧ g.hasVertex e.toId = true

/-- A sequence of `addVertex` calls, collecting the returned ids in call
order. -/
def addVertexSeq (g : Graph α) : List (Fin 4 → α) → Graph α × List ℤ
  | [] => (g, [])
  | p :: ps =>
      let r := g.addVertex p
      let s := addVertexSeq r.1 ps
      (s.1, r.2 :: s.2)

/-- Ingest a batch of frames into a graph, one `insertFrame` each. -/
def ingest (g : Graph α) (fs : List (Frame α)) : Graph α :=
  fs.foldl Graph.insertFrame g

/-- Written from the spec's words, for comparison with the
implementation-side `getFrameVertices`: the vertex set `V(F)` of frame
`F`, in insertion order, as produced by ingesting `fs` when `n` vertices
already exist — each frame's sub-poses receive the next consecutive ids,
and those of frames with id `F` are collected. -/
def idsFrom (n k : ℕ) : List ℤ :=
  (List.range k).map (fun j => ((n + j : ℕ) : ℤ))

def specFrameVertices (n : ℕ) (fs : List (Frame α)) (F : ℤ) : List ℤ :=
  match fs with
  | [] => []
  | f :: rest =>
      (if f.frame_id = F then idsFrom n f.sub_poses.length else []) ++
        specFrameVertices (n + f.sub_poses.length) rest F

/-- Ten vertices with ids 0..9 on a straight line with unit spacing, as
in the spec's neighbor-query scenario. -/
def lineGraph : Graph ℤ :=
  (addVertexSeq Graph.initial
    ((List.range 10).map (fun i => fun x =>
      if x = (0 : Fin 4) then (i : ℤ) else 0))).1

/-- A concrete graph with a single vertex (id 0), used to evaluate the
error paths on explicit inputs. -/
def oneVertexGraph : Graph ℤ :=
  ((Graph.initial : Graph ℤ).addVertex (fun _ => 0)).1

/-- A concrete cluster with a nontrivial orthogonal pose (rotation by a
quarter turn about the z axis) and two camera points. -/
def rotCluster : Cluster ℤ :=
  ⟨2, 5, ⟨!![0, -1, 0; 1, 0, 0; 0, 0, 1], ![1, 2, 3]⟩, [(1, 1)], [[1]], [[2]],
   [![4, 5, 6], ![7, 8, 9]]⟩

/-- A concrete cluster with a nonempty pose but no camera points. -/
def emptyPointsCluster : Cluster ℤ :=
  ⟨3, 4, ⟨!![0, -1, 0; 1, 0, 0; 0, 0, 1], ![1, 2, 3]⟩, [(2, 2)], [], [], []⟩

end Defs

section SortLemmas

variable {β : Type} {le : β → β → Bool}

theorem mem_insertLe {x z : β} {l : List β} :
    z ∈ insertLe le x l ↔ z = x ∨ z ∈ l := by
  induction l with
  | nil => simp [insertLe]
  | cons y ys ih =>
      by_cases h : le x y = true
      · simp [insertLe, h]
      · simp only [insertLe, if_neg h, List.mem_cons, ih]
        tauto

theorem perm_insertLe (x : β) (l : List β) :
    List.Perm (insertLe le x l) (x :: l) := by
  induction l with
  | nil => simp [insertLe]
  | cons y ys ih =>
      by_cases h : le x y = true
      · simp [insertLe, h]
      · rw [insertLe, if_neg h]
        exact (ih.cons y).trans (List.Perm.swap x y ys)

theorem perm_insertionSort (l : List β) :
    List.Perm (insertionSort le l) l := by
  induction l with
  | nil => simp [insertionSort]
  | cons x xs ih =>
      exact (perm_insertLe x (insertionSort le xs)).trans (ih.cons x)

theorem pairwise_insertLe
    (htot : ∀ a b : β, le a b = true ∨ le b a = true)
    (htrans : ∀ a b c : β, le a b = true → le b c = true → le a c = true)
    {x : β} {l : List β} (hl : l.Pairwise (fun a b => le a b = true)) :
    (insertLe le x l).Pairwise (fun a b => le a b = true) := by
  induction l with
  | nil => simp [insertLe]
  | cons y ys ih =>
      rcases List.pairwise_cons.mp hl with ⟨hy, hys⟩
      by_cases h : le x y = true
      · rw [insertLe, if_pos h]
        refine List.pairwise_cons.mpr ⟨?_, hl⟩
        intro b hb
        rcases List.mem_cons.mp hb with rfl | hb
        · exact h
        · exact htrans x y b h (hy b hb)
      · rw [insertLe, if_neg h]
        refine List.pairwise_cons.mpr ⟨?_, ih hys⟩
        intro b hb
        rcases mem_insertLe.mp hb with rfl | hb
        · rcases htot b y with hby | hyb
          · exact absurd hby h
          · exact hyb
        · exact hy b hb

theorem pairwise_insertionSort
    (htot : ∀ a b : β, le a b = true ∨ le b a = true)
    (htrans : ∀ a b c : β, le a b = true → le b c = true → le a c = true)
    (l : List β) :
    (insertionSort le l).Pairwise (fun a b => le a b = true) := by
  induction l with
  | nil => simp [insertionSort]
  | cons x xs ih => exact pairwise_insertLe htot htrans ih

theorem pairwise_take_drop {R : β → β → Prop} {l : List β} {k : ℕ}
    (h : l.Pairwise R) :
    ∀ a ∈ l.take k, ∀ b ∈ l.drop k, R a b := by
  have hsplit := List.take_append_drop k l
  have h' : (l.take k ++ l.drop k).Pairwise R := by rw [hsplit]; exact h
  exact (List.pairwise_append.mp h').2.2

theorem foldl_push_eq_map {γ : Type} (f : β → γ) :
    ∀ (l : List β) (acc : List γ),
      l.foldl (fun out p => out ++ [f p]) acc = acc ++ l.map f := by
  intro l
  induction l with
  | nil => simp
  | cons x xs ih =>
      intro acc
      simp only [List.foldl_cons, List.map_cons, ih, List.append_assoc,
        List.singleton_append]

end SortLemmas

section Lemmas

variable {α : Type} [LinearOrderedCommRing α]

theorem applyTransform_inverse (T : RigidTransform α)
    (h : T.rot.transpose * T.rot = 1) (p : Vec3 α) :
    applyTransform T.inverse (applyTransform T p) = p := by
  unfold applyTransform RigidTransform.inverse
  simp only [Matrix.mulVec_add, Matrix.mulVec_mulVec, h, Matrix.one_mulVec]
  exact add_neg_cancel_right p _

theorem getWorldPoints_eq_map (c : Cluster α) :
    c.getWorldPoints = c.points_.map (fun p => transformPoint p c.pose_) := by
  unfold Cluster.getWorldPoints
  rw [foldl_push_eq_map]
  simp

theorem distLe_total (g : Graph α) (v : ℤ) :
    ∀ a b : ℤ, g.distLe v a b = true ∨ g.distLe v b a = true := by
  intro a b
  simp only [Graph.distLe, Bool.or_eq_true, Bool.and_eq_true, decide_eq_true_eq]
  rcases lt_trichotomy (dist2 (g.vertexTrans a) (g.vertexTrans v))
      (dist2 (g.vertexTrans b) (g.vertexTrans v)) with hlt | heq | hgt
  · exact Or.inl (Or.inl hlt)
  · rcases le_total a b with hab | hba
    · exact Or.inl (Or.inr ⟨heq, hab⟩)
    · exact Or.inr (Or.inr ⟨heq.symm, hba⟩)
  · exact Or.inr (Or.inl hgt)

theorem distLe_trans (g : Graph α) (v : ℤ) :
    ∀ a b c : ℤ, g.distLe v a b = true → g.distLe v b c = true →
      g.distLe v a c = true := by
  intro a b c hab hbc
  simp only [Graph.distLe, Bool.or_eq_true, Bool.and_eq_true,
    decide_eq_true_eq] at hab hbc ⊢
  rcases hab with hab | ⟨hab, hab2⟩ <;> rcases hbc with hbc | ⟨hbc, hbc2⟩
  · exact Or.inl (hab.trans hbc)
  · exact Or.inl (lt_of_lt_of_eq hab hbc)
  · exact Or.inl (lt_of_eq_of_lt hab hbc)
  · exact Or.inr ⟨hab.trans hbc, hab2.trans hbc2⟩

theorem distLe_ne_lt {g : Graph α} {v a b : ℤ}
    (h : g.distLe v a b = true) (hne : a ≠ b) : g.distLt v a b := by
  simp only [Graph.distLe, Bool.or_eq_true, Bool.and_eq_true,
    decide_eq_true_eq] at h
  rcases h with h | ⟨h1, h2⟩
  · exact Or.inl h
  · exact Or.inr ⟨h1, lt_of_le_of_ne h2 hne⟩

theorem mem_candidates {g : Graph α} {c w x : ℤ} :
    x ∈ g.candidates c w ↔
      g.hasVertex x = true ∧ (x < c - w ∨ c + w < x) := by
  unfold Graph.candidates Graph.hasVertex
  simp only [List.mem_filter, List.mem_map, List.mem_range,
    Bool.or_eq_true, Bool.and_eq_true, decide_eq_true_eq, Int.ofNat_eq_coe]
  constructor
  · rintro ⟨⟨n, hn, rfl⟩, hw⟩
    exact ⟨⟨by omega, by omega⟩, hw⟩
  · rintro ⟨⟨h0, hlen⟩, hw⟩
    exact ⟨⟨x.toNat, by omega, by omega⟩, hw⟩

theorem nodup_candidates (g : Graph α) (c w : ℤ) :
    (g.candidates c w).Nodup := by
  unfold Graph.candidates
  exact ((List.nodup_range _).map (fun a b h => Int.ofNat.inj h)).filter _

theorem idsFrom_succ (n k : ℕ) :
    idsFrom n (k + 1) = (n : ℤ) :: idsFrom (n + 1) k := by
  unfold idsFrom
  rw [List.range_succ_eq_map]
  simp only [List.map_cons, List.map_map, Nat.add_zero, List.cons.injEq]
  refine ⟨by simp, List.map_congr_left ?_⟩
  intro j _
  simp only [Function.comp_apply]
  congr 1
  omega

theorem insertFrame_closed (g : Graph α) (fid : ℤ) (ps : List (Fin 4 → α)) :
    Graph.insertFrame g ⟨fid, ps⟩ =
      ⟨g.vertices ++ ps.map mkSeedVertex, g.edges, g.frame_queue,
       g.frames_counter,
       g.cluster_frame ++ (idsFrom g.vertices.length ps.length).map (fun i => (i, fid)),
       g.camera2odom⟩ := by
  induction ps generalizing g with
  | nil => simp [Graph.insertFrame, idsFrom]
  | cons p rest ih =>
      have hstep : Graph.insertFrame g ⟨fid, p :: rest⟩ =
          Graph.insertFrame
            ⟨g.vertices ++ [mkSeedVertex p], g.edges, g.frame_queue,
             g.frames_counter,
             g.cluster_frame ++ [((g.vertices.length : ℤ), fid)],
             g.camera2odom⟩ ⟨fid, rest⟩ := rfl
      rw [hstep, ih]
      simp [idsFrom_succ]

theorem length_setPoses (vs : List (Vertex α)) (ps : List (RigidTransform α)) :
    (setPoses vs ps).length = vs.length := by
  induction vs generalizing ps with
  | nil => simp [setPoses]
  | cons v rest ih =>
      cases ps with
      | nil => simp [setPoses]
      | cons p ps' => simp [setPoses, ih]

theorem addVertexSeq_closed (g : Graph α) (ps : List (Fin 4 → α)) :
    addVertexSeq g ps =
      (⟨g.vertices ++ ps.map mkSeedVertex, g.edges, g.frame_queue,
        g.frames_counter, g.cluster_frame, g.camera2odom⟩,
       idsFrom g.vertices.length ps.length) := by
  induction ps generalizing g with
  | nil => simp [addVertexSeq, idsFrom]
  | cons p rest ih =>
      rw [addVertexSeq, ih]
      simp [Graph.addVertex, idsFrom_succ]

theorem tagFilter (ids : List ℤ) (fid F : ℤ) :
    ((ids.map (fun i => (i, fid))).filter (fun pr => pr.2 == F)).map Prod.fst
      = if fid = F then ids else [] := by
  induction ids with
  | nil => simp
  | cons i rest ih =>
      by_cases h : fid = F
      · simpa [h] using ih
      · simpa [h] using ih

theorem getFrameVertices_insertFrame (g : Graph α) (f : Frame α) (F : ℤ) :
    (g.insertFrame f).getFrameVertices F =
      g.getFrameVertices F ++
        (if f.frame_id = F then idsFrom g.vertices.length f.sub_poses.length
         else []) := by
  obtain ⟨fid, ps⟩ := f
  rw [insertFrame_closed]
  unfold Graph.getFrameVertices
  simp only [List.filter_append, List.map_append, tagFilter]

theorem vertices_insertFrame (g : Graph α) (f : Frame α) :
    (g.insertFrame f).vertices.length =
      g.vertices.length + f.sub_poses.length := by
  obtain ⟨fid, ps⟩ := f
  rw [insertFrame_closed]
  simp

theorem getFrameVertices_ingest (fs : List (Frame α)) (g : Graph α) (F : ℤ) :
    (ingest g fs).getFrameVertices F =
      g.getFrameVertices F ++ specFrameVertices g.vertices.length fs F := by
  induction fs generalizing g with
  | nil => simp [ingest, specFrameVertices]
  | cons f rest ih =>
      have hstep : ingest g (f :: rest) = ingest (g.insertFrame f) rest := rfl
      rw [hstep, ih, specFrameVertices, getFrameVertices_insertFrame,
        vertices_insertFrame, List.append_assoc]

theorem hasVertex_mono {g g' : Graph α}
    (h : g.vertices.length ≤ g'.vertices.length) {i : ℤ}
    (hi : g.hasVertex i = true) : g'.hasVertex i = true := by
  unfold Graph.hasVertex at *
  simp only [Bool.and_eq_true, decide_eq_true_eq] at *
  omega

theorem edgesValid_of_same_store {g g' : Graph α}
    (hv : g.vertices.length ≤ g'.vertices.length) (he : g'.edges = g.edges)
    (h : edgesValid g) : edgesValid g' := by
  intro e hm
  rw [he] at hm
  exact ⟨hasVertex_mono hv (h e hm).1, hasVertex_mono hv (h e hm).2⟩

theorem edgesValid_applyOp (g : Graph α) (op : Op α) (h : edgesValid g) :
    edgesValid (applyOp g op) := by
  cases op with
  | opAddVertex p =>
      have hv : applyOp g (.opAddVertex p) =
          ⟨g.vertices ++ [mkSeedVertex p], g.edges, g.frame_queue,
           g.frames_counter, g.cluster_frame, g.camera2odom⟩ := rfl
      rw [hv]
      refine edgesValid_of_same_store ?_ ?_ h
      · simp
      · rfl
  | opAddEdge i j t n =>
      by_cases hc : (g.hasVertex i && g.hasVertex j) = true
      · have hij := hc
        simp only [Bool.and_eq_true] at hij
        have hok : applyOp g (.opAddEdge i j t n) =
            ⟨g.vertices, g.edges ++ [⟨i, j, t, n⟩], g.frame_queue,
             g.frames_counter, g.cluster_frame, g.camera2odom⟩ := by
          simp only [applyOp, Graph.addEdge, if_pos hc]
        rw [hok]
        intro e hm
        simp only [List.mem_append, List.mem_singleton] at hm
        rcases hm with hm | rfl
        · exact ⟨(h e hm).1, (h e hm).2⟩
        · exact ⟨hij.1, hij.2⟩
      · have hbad : applyOp g (.opAddEdge i j t n) = g := by
          simp only [applyOp, Graph.addEdge, if_neg hc]
        rw [hbad]
        exact h
  | opUpdate res =>
      cases res with
      | none => exact h
      | some ps =>
          have hu : applyOp g (.opUpdate (some ps)) =
              ⟨setPoses g.vertices ps, g.edges, g.frame_queue,
               g.frames_counter, g.cluster_frame, g.camera2odom⟩ := rfl
          rw [hu]
          refine edgesValid_of_same_store ?_ ?_ h
          · rw [length_setPoses]
          · rfl
  | opAddFrameToQueue f =>
      have hq : applyOp g (.opAddFrameToQueue f) =
          ⟨g.vertices, g.edges, g.frame_queue ++ [f], g.frames_counter,
           g.cluster_frame, g.camera2odom⟩ := rfl
      rw [hq]
      refine edgesValid_of_same_store ?_ ?_ h
      · exact le_refl _
      · rfl
  | opProcessNewFrame =>
      have hp : applyOp g .opProcessNewFrame = g.processNewFrame := rfl
      rw [hp]
      cases hq : g.frame_queue with
      | nil =>
          have : g.processNewFrame = g := by
            unfold Graph.processNewFrame
            rw [hq]
          rw [this]
          exact h
      | cons f rest =>
          obtain ⟨fid, ps⟩ := f
          have hpn : g.processNewFrame =
              Graph.insertFrame
                ⟨g.vertices, g.edges, rest, g.frames_counter + 1,
                 g.cluster_frame, g.camera2odom⟩ ⟨fid, ps⟩ := by
            unfold Graph.processNewFrame
            rw [hq]
          rw [hpn, insertFrame_closed]
          refine edgesValid_of_same_store ?_ ?_ h
          · simp
          · rfl
  | opFindClosestVertices v c w k => exact h
  | opGetFrameVertices fid => exact h
  | opSaveToFile => exact h
  | opSetCamera2Odom t =>
      have ht : applyOp g (.opSetCamera2Odom t) =
          ⟨g.vertices, g.edges, g.frame_queue, g.frames_counter,
           g.cluster_frame, t⟩ := rfl
      rw [ht]
      refine edgesValid_of_same_store ?_ ?_ h
      · exact le_refl _
      · rfl

theorem edgesValid_foldl (ops : List (Op α)) (g : Graph α) (h : edgesValid g) :
    edgesValid (ops.foldl applyOp g) := by
  induction ops generalizing g with
  | nil => exact h
  | cons op rest ih => exact ih _ (edgesValid_applyOp g op h)

theorem findClosestVertices_ok {α : Type} [LinearOrderedCommRing α]
    {g : Graph α} (v c w k : ℤ) (hv : g.hasVertex v = true) :
    g.findClosestVertices v c w k =
      Except.ok ((insertionSort (g.distLe v) (g.candidates c w)).take k.toNat) := by
  unfold Graph.findClosestVertices
  rw [if_pos hv]

theorem specFrameVertices_nil_of_no_match (F : ℤ) :
    ∀ (fs : List (Frame α)) (n : ℕ), (∀ f ∈ fs, f.frame_id ≠ F) →
      specFrameVertices n fs F = [] := by
  intro fs
  induction fs with
  | nil => intro n _; rfl
  | cons f rest ih =>
      intro n h
      rw [specFrameVertices, if_neg (h f (List.mem_cons_self f rest)),
        List.nil_append]
      exact ih _ (fun f' hf' => h f' (List.mem_cons_of_mem f hf'))

theorem vertexEntriesFrom_map_id (vs : List (Vertex α)) :
    ∀ n : ℕ, (vertexEntriesFrom n vs).map VertexEntry.vertex_id =
      idsFrom n vs.length := by
  induction vs with
  | nil => intro n; simp [vertexEntriesFrom, idsFrom]
  | cons v rest ih =>
      intro n
      rw [vertexEntriesFrom, List.map_cons, List.length_cons, idsFrom_succ, ih]

theorem vertexEntriesFrom_map_pose (vs : List (Vertex α)) :
    ∀ n : ℕ, (vertexEntriesFrom n vs).map VertexEntry.pose =
      vs.map Vertex.optimized_pose := by
  induction vs with
  | nil => intro n; rfl
  | cons v rest ih =>
      intro n
      rw [vertexEntriesFrom, List.map_cons, List.map_cons, ih]

theorem pairwise_idsFrom (n k : ℕ) : (idsFrom n k).Pairwise (· < ·) := by
  unfold idsFrom
  refine List.Pairwise.map _ ?_ (List.pairwise_lt_range k)
  intro a b hab
  omega

end Lemmas

section Claims

/-- C1: for every graph state and every neighbor query whose anchor
exists, no returned id lies in the inclusive window `[c - w, c + w]`;
the returned ids are existing vertices outside the window, there are
`min k` (number of surviving candidates) of them (all survivors when
fewer than `k` survive, which is not an error), they are sorted by
strictly ascending squared translation distance to the anchor with ties
broken by lower id, and every surviving candidate left out ranks
at or after every returned one.  In particular, on ten vertices along a
unit-spaced line, `findClosestVertices 9 9 2 3` returns `[6, 5, 4]`. -/
theorem findClosestVertices_window_and_order :
    (∀ (α : Type) [LinearOrderedCommRing α] (g : Graph α) (v c w k : ℤ),
      g.hasVertex v = true →
      ∃ ns, g.findClosestVertices v c w k = Except.ok ns ∧
        (∀ x ∈ ns, g.hasVertex x = true ∧ (x < c - w ∨ c + w < x)) ∧
        ns.length = min k.toNat (g.candidates c w).length ∧
        ns.Pairwise (g.distLt v) ∧
        (∀ y, g.hasVertex y = true → (y < c - w ∨ c + w < y) → y ∉ ns →
          ∀ x ∈ ns, g.distLt v x y)) ∧
    Graph.findClosestVertices lineGraph 9 9 2 3 = Except.ok [6, 5, 4] := by
  constructor
  · intro α inst g v c w k hv
    refine ⟨_, findClosestVertices_ok v c w k hv, ?_, ?_, ?_, ?_⟩
    all_goals
      have hperm := @perm_insertionSort ℤ (g.distLe v) (g.candidates c w)
      have hpw := pairwise_insertionSort (distLe_total g v) (distLe_trans g v)
        (g.candidates c w)
      have hnd := hperm.symm.nodup (nodup_candidates g c w)
    · intro x hx
      exact mem_candidates.mp
        (hperm.subset ((List.take_sublist _ _).subset hx))
    · rw [List.length_take, hperm.length_eq]
    · have hpwt := List.Pairwise.sublist
        (List.take_sublist k.toNat (insertionSort (g.distLe v) (g.candidates c w))) hpw
      have hndt : (List.take k.toNat
          (insertionSort (g.distLe v) (g.candidates c w))).Nodup :=
        List.Nodup.sublist
          (List.take_sublist k.toNat (insertionSort (g.distLe v) (g.candidates c w))) hnd
      exact (hpwt.and hndt).imp (fun hab => distLe_ne_lt hab.1 hab.2)
    · intro y hy hyw hyn x hx
      have hymem : y ∈ insertionSort (g.distLe v) (g.candidates c w) :=
        hperm.symm.subset (mem_candidates.mpr ⟨hy, hyw⟩)
      have hyd : y ∈ List.drop k.toNat
          (insertionSort (g.distLe v) (g.candidates c w)) := by
        rcases List.mem_append.mp
            (by rw [List.take_append_drop]; exact hymem :
              y ∈ List.take k.toNat (insertionSort (g.distLe v) (g.candidates c w)) ++
                List.drop k.toNat (insertionSort (g.distLe v) (g.candidates c w)))
          with hyt | hyd
        · exact absurd hyt hyn
        · exact hyd
      have hle : g.distLe v x y = true := pairwise_take_drop hpw x hx y hyd
      have hne : x ≠ y := pairwise_take_drop hnd x hx y hyd
      exact distLe_ne_lt hle hne
  · rfl

/-- Witness for C1: the hypotheses of the neighbor-query theorem are
satisfiable — the scenario anchor exists and the query succeeds. -/
theorem findClosestVertices_window_and_order_witness :
    (Graph.findClosestVertices lineGraph 9 9 2 3).isOk = true := by
  obtain ⟨ns, hns, -⟩ :=
    findClosestVertices_window_and_order.1 ℤ lineGraph 9 9 2 3 (by rfl)
  rw [hns]
  rfl

/-- C2: `N` `addVertex` calls on a freshly initialized graph return
exactly the ids `0, 1, ..., N-1` in call order — dense, starting at 0,
strictly increasing, never repeated — and leave exactly `N` vertices. -/
theorem addVertex_monotonic_ids (α : Type) [LinearOrderedCommRing α]
    (ps : List (Fin 4 → α)) :
    (addVertexSeq (Graph.initial : Graph α) ps).2 =
        (List.range ps.length).map Int.ofNat ∧
      (addVertexSeq (Graph.initial : Graph α) ps).1.vertices.length =
        ps.length ∧
      (addVertexSeq (Graph.initial : Graph α) ps).2.Pairwise (· < ·) := by
  rw [addVertexSeq_closed]
  refine ⟨?_, by simp [Graph.initial], ?_⟩
  · unfold idsFrom
    simp [Graph.initial]
  · exact pairwise_idsFrom _ _

/-- C3: referencing a nonexistent vertex id fails synchronously with
`InvalidVertexReference`: `addEdge` fails whenever either endpoint does
not exist and otherwise appends exactly one edge, leaving vertices,
queue, counters and configuration untouched (no optimization is
triggered); `findClosestVertices` fails whenever its anchor does not
exist. -/
theorem invalid_vertex_reference (α : Type) [LinearOrderedCommRing α]
    (g : Graph α) (i j v c w k : ℤ) (t : RigidTransform α) (n : ℤ) :
    ((g.hasVertex i = false ∨ g.hasVertex j = false) →
      g.addEdge i j t n = Except.error GraphError.invalidVertexReference) ∧
    (g.hasVertex i = true → g.hasVertex j = true →
      g.addEdge i j t n = Except.ok
        ⟨g.vertices, g.edges ++ [⟨i, j, t, n⟩], g.frame_queue,
         g.frames_counter, g.cluster_frame, g.camera2odom⟩) ∧
    (g.hasVertex v = false →
      g.findClosestVertices v c w k =
        Except.error GraphError.invalidVertexReference) := by
  refine ⟨?_, ?_, ?_⟩
  · intro h
    unfold Graph.addEdge
    rcases h with h | h <;> rw [if_neg (by simp [h])]
  · intro hi hj
    unfold Graph.addEdge
    rw [if_pos (by simp [hi, hj])]
  · intro h
    unfold Graph.findClosestVertices
    rw [if_neg (by simp [h])]

/-- Witness for C3: on a one-vertex graph, an edge to the missing id 5
and a query anchored at the missing id 7 fail with
`InvalidVertexReference`, while the self-edge on id 0 succeeds. -/
theorem invalid_vertex_reference_witness :
    Graph.addEdge oneVertexGraph 0 5 idTransform 3 =
        Except.error GraphError.invalidVertexReference ∧
      (Graph.addEdge oneVertexGraph 0 0 idTransform 3).isOk = true ∧
      Graph.findClosestVertices oneVertexGraph 7 0 0 1 =
        Except.error GraphError.invalidVertexReference := by
  refine ⟨?_, ?_, ?_⟩
  · exact (invalid_vertex_reference ℤ oneVertexGraph 0 5 7 0 0 1
      idTransform 3).1 (Or.inr (by rfl))
  · rw [(invalid_vertex_reference ℤ oneVertexGraph 0 0 7 0 0 1
      idTransform 3).2.1 (by rfl) (by rfl)]
    rfl
  · exact (invalid_vertex_reference ℤ oneVertexGraph 0 5 7 0 0 1
      idTransform 3).2.2 (by rfl)

/-- C4: when `update` reports `OptimizationDivergence`, every vertex's
optimized pose is exactly as before the call, the edge store is
untouched, and a subsequent `saveToFile` serializes exactly the
pre-failure record. -/
theorem update_divergence_preserves (α : Type) [LinearOrderedCommRing α]
    (g : Graph α) (res : Option (List (RigidTransform α)))
    (h : (g.update res).2 = UpdateStatus.optimizationDivergence) :
    (g.update res).1.vertices.map Vertex.optimized_pose =
        g.vertices.map Vertex.optimized_pose ∧
      ((g.update res).1.saveToFile).1 = (g.saveToFile).1 ∧
      (g.update res).1 = g := by
  cases res with
  | none => exact ⟨rfl, rfl, rfl⟩
  | some ps => simp [Graph.update] at h

/-- Witness for C4: a diverged solve on the one-vertex graph leaves the
persisted record unchanged. -/
theorem update_divergence_preserves_witness :
    ((Graph.update oneVertexGraph none).1.saveToFile).1 =
      (oneVertexGraph.saveToFile).1 :=
  (update_divergence_preserves ℤ oneVertexGraph none rfl).2.1

/-- C5: after ingesting any frame batch into a fresh graph,
`getFrameVertices F` returns exactly the vertex ids created for the
frames with id `F`, in insertion order; a frame id never ingested yields
the empty list (and the operation has no error path). -/
theorem getFrameVertices_consistency (α : Type) [LinearOrderedCommRing α]
    (fs : List (Frame α)) (F : ℤ) :
    (ingest (Graph.initial : Graph α) fs).getFrameVertices F =
        specFrameVertices 0 fs F ∧
      ((∀ f ∈ fs, f.frame_id ≠ F) →
        (ingest (Graph.initial : Graph α) fs).getFrameVertices F = []) := by
  have h1 := getFrameVertices_ingest fs (Graph.initial : Graph α) F
  have h0 : (Graph.initial : Graph α).getFrameVertices F = [] := rfl
  rw [h0, List.nil_append] at h1
  refine ⟨h1, ?_⟩
  intro hnone
  rw [h1]
  exact specFrameVertices_nil_of_no_match F fs _ hnone

/-- Witness for C5: a batch holding one frame with id 5 yields nothing
for the never-ingested frame id 7. -/
theorem getFrameVertices_consistency_witness :
    (ingest (Graph.initial : Graph ℤ)
        [⟨5, [fun _ => 0]⟩]).getFrameVertices 7 = [] :=
  (getFrameVertices_consistency ℤ [⟨5, [fun _ => 0]⟩] 7).2
    (by intro f hf; rw [List.mem_singleton] at hf; rw [hf]; decide)

/-- C6: in every state reachable from the freshly initialized graph by
any sequence of public operations, both endpoints of every stored edge
are existing vertex ids — the graph never contains a dangling edge. -/
theorem no_dangling_edges (α : Type) [LinearOrderedCommRing α]
    (ops : List (Op α)) :
    edgesValid (ops.foldl applyOp (Graph.initial : Graph α)) := by
  apply edgesValid_foldl
  intro e he
  exact absurd he (List.not_mem_nil e)

/-- C7: `getWorldPoints` returns a fresh sequence of the same length and
order as `points_`, whose i-th element is the rigid transform `pose_`
applied to the i-th camera point; being a pure function of the cluster,
it mutates nothing and repeated calls yield identical output. -/
theorem getWorldPoints_maps (α : Type) [LinearOrderedCommRing α]
    (c : Cluster α) :
    c.getWorldPoints = c.points_.map (fun p => transformPoint p c.pose_) ∧
      c.getWorldPoints.length = c.points_.length ∧
      (∀ i : ℕ, c.getWorldPoints[i]? =
        (c.points_[i]?).map (fun p => applyTransform c.pose_ p)) := by
  refine ⟨getWorldPoints_eq_map c, ?_, ?_⟩
  · rw [getWorldPoints_eq_map]
    simp
  · intro i
    rw [getWorldPoints_eq_map]
    simp [transformPoint]

/-- C8: each world point equals the pose applied to the corresponding
camera point, and when the pose's rotation is orthogonal (the defining
property of a rigid transform) applying the inverse transform to the
world points recovers the camera points exactly — the model is exact
arithmetic, so recovery within numerical tolerance holds as equality. -/
theorem world_point_round_trip (α : Type) [LinearOrderedCommRing α]
    (c : Cluster α) (h : c.pose_.rot.transpose * c.pose_.rot = 1) :
    (∀ i : ℕ, c.getWorldPoints[i]? =
        (c.points_[i]?).map (fun p => applyTransform c.pose_ p)) ∧
      c.getWorldPoints.map
          (fun q => applyTransform c.pose_.inverse q) = c.points_ := by
  constructor
  · intro i
    rw [getWorldPoints_eq_map]
    simp [transformPoint]
  · rw [getWorldPoints_eq_map, List.map_map]
    have hcong : ∀ p ∈ c.points_,
        ((fun q => applyTransform c.pose_.inverse q) ∘
          fun p => transformPoint p c.pose_) p = p := by
      intro p _
      simp only [Function.comp_apply, transformPoint]
      exact applyTransform_inverse c.pose_ h p
    rw [List.map_congr_left hcong]
    exact List.map_id' c.points_

/-- Witness for C8: the quarter-turn cluster's pose is orthogonal and
its two world points map back to the camera points. -/
theorem world_point_round_trip_witness :
    rotCluster.getWorldPoints.map
        (fun q => applyTransform rotCluster.pose_.inverse q) =
      rotCluster.points_ :=
  (world_point_round_trip ℤ rotCluster (by decide)).2

/-- C9: the persisted record has exactly one entry per vertex carrying
its id and optimized pose, in strictly ascending id order `0..n-1`,
followed by one entry per edge in insertion order, and producing it
leaves the graph unchanged. -/
theorem saveToFile_record (α : Type) [LinearOrderedCommRing α]
    (g : Graph α) :
    (g.saveToFile).2 = g ∧
      (g.saveToFile).1.vertexEntries.map VertexEntry.vertex_id =
        idsFrom 0 g.vertices.length ∧
      (g.saveToFile).1.vertexEntries.map VertexEntry.pose =
        g.vertices.map Vertex.optimized_pose ∧
      ((g.saveToFile).1.vertexEntries.map VertexEntry.vertex_id).Pairwise
        (· < ·) ∧
      (g.saveToFile).1.edgeEntries = g.edges.map
        (fun e => ⟨e.fromId, e.toId, e.relative_transform,
          e.inlier_count⟩) := by
  refine ⟨rfl, ?_, ?_, ?_, rfl⟩
  · exact vertexEntriesFrom_map_id g.vertices 0
  · exact vertexEntriesFrom_map_pose g.vertices 0
  · have h2 : (List.map VertexEntry.vertex_id
        (vertexEntriesFrom 0 g.vertices)).Pairwise (· < ·) := by
      rw [vertexEntriesFrom_map_id g.vertices 0]
      exact pairwise_idsFrom _ _
    exact h2

/-- C10: a cluster with no camera points — in particular the
default-constructed cluster, whose id is `-1` and whose point sequence
is empty — yields the empty world sequence from `getWorldPoints`, with no
error path. -/
theorem default_cluster_world_points (α : Type) [LinearOrderedCommRing α] :
    (Cluster.mkDefault : Cluster α).id_ = -1 ∧
      (Cluster.mkDefault : Cluster α).points_ = [] ∧
      (Cluster.mkDefault : Cluster α).getWorldPoints = [] ∧
      (∀ c : Cluster α, c.points_ = [] → c.getWorldPoints = []) := by
  refine ⟨rfl, rfl, rfl, ?_⟩
  intro c hc
  rw [getWorldPoints_eq_map, hc]
  rfl

/-- Witness for C10: a nontrivially posed cluster with no points yields
no world points. -/
theorem default_cluster_world_points_witness :
    emptyPointsCluster.getWorldPoints = [] :=
  (default_cluster_world_points ℤ).2.2.2 emptyPointsCluster rfl

end Claims

end slam
